import Mathlib

/- Verification of the snarkVM circuit gadget `Field::from_bits_le`
   (src/circuits/types/field/src/helpers/from_bits_le.rs) and of the
   coinbase-puzzle record `PartialProverSolution`
   (src/vm/compiler/src/coinbase_puzzle/data_structures/partial_prover_solution.rs),
   via a shallow embedding.

   Circuit booleans are embedded by their witness value (`Bool`); field
   elements by their canonical residue (`Nat` below the modulus `p`).
   Every assertion the gadget emits (`E::assert`, `E::assert_eq`) is
   recorded as the truth value of that assertion under the witness
   assignment, so the built circuit is satisfiable iff every recorded
   value is `true`.  Rust panics (`usize` underflow, `zip_eq` length
   mismatch, the final `debug_assert!`) and `E::halt` are embedded as
   `none`. -/

/-- Numeric value of a little-endian bit sequence. -/
def leVal : List Bool → Nat
  | [] => 0
  | b :: bs => (if b then 1 else 0) + 2 * leVal bs

/-- Fixed-width little-endian bit decomposition (`to_bits_le` with `w` bits). -/
def toBitsLE : Nat → Nat → List Bool
  | 0, _ => []
  | w + 1, n => (n % 2 == 1) :: toBitsLE w (n / 2)

/-- Fixed-width big-endian bit decomposition (`to_bits_be`). -/
def toBitsBE (w n : Nat) : List Bool := (toBitsLE w n).reverse

/-- Numeric value of a big-endian bit sequence. -/
def beVal (l : List Bool) : Nat := leVal l.reverse

/-- Fuelled bit-length computation. -/
def bitLenAux : Nat → Nat → Nat
  | 0, _ => 0
  | fuel + 1, n => if n = 0 then 0 else bitLenAux fuel (n / 2) + 1

/-- `E::BaseField::size_in_bits()`: the bit length of the modulus `p`. -/
def size_in_bits (p : Nat) : Nat := bitLenAux p p

/-- `E::BaseField::size_in_data_bits()`: the field capacity, one less than
the modulus bit length. -/
def size_in_data_bits (p : Nat) : Nat := size_in_bits p - 1

/-- The linear-combination accumulation loop of `from_bits_le`:
`output += Field::from_boolean(bit) * coefficient; coefficient = coefficient.double()`,
in the field arithmetic of modulus `p`. -/
def weightedSum (p : Nat) : List Bool → Nat → Nat → Nat
  | [], output, _ => output
  | bit :: bits, output, coefficient =>
      weightedSum p bits ((output + (if bit then 1 else 0) * coefficient) % p)
        (coefficient * 2 % p)

/-- The run-length comparison loop of `from_bits_le` (lines 57-81): walks the
big-endian bits of `modulus - 1` together with the candidate's big-endian
bits, buffering candidate bits paired with modulus `1`-bits into `sequence`,
and at every modulus `0`-bit AND-folding the buffered run into `previous` and
emitting the assertion `previous NAND current_bit`.  Returns the truth values
of the emitted assertions together with the final buffered `sequence`. -/
def canonLoop : List Bool → List Bool → Bool → List Bool → List Bool × List Bool
  | true :: ms, c :: cs, previous, sequence => canonLoop ms cs previous (sequence ++ [c])
  | false :: ms, c :: cs, previous, sequence =>
      let previous2 := if sequence.isEmpty then previous
        else sequence.foldl (fun a b => a && b) previous
      let rest := canonLoop ms cs previous2 []
      ((!(previous2 && c)) :: rest.1, rest.2)
  | _, _, _, sequence => ([], sequence)

/-- The canonicity check of `from_bits_le` (lines 48-84), run when
`num_bits > size_in_data_bits`.  `none` embeds a panic: the `usize`
underflow in `skip(bits_le.len() - size_in_bits)`, a `zip_eq` length
mismatch, or the final `debug_assert!(sequence.is_empty())`. -/
def canonSection (p : Nat) (bits_le : List Bool) : Option (List Bool) :=
  if bits_le.length < size_in_bits p then none
  else
    let bits_be := bits_le.reverse.drop (bits_le.length - size_in_bits p)
    let pattern := toBitsBE (size_in_bits p) (p - 1)
    if pattern.length = bits_be.length then
      let r := canonLoop pattern bits_be true []
      if r.2.isEmpty then some r.1 else none
    else none

/-- Modelled from the spec: the external write-once bit-decomposition cache
(`output.bits_le`, an `OnceCell`).  Setting an empty cell stores the value;
setting an already-populated cell fails (spec section 3: "once the bit-cache
is populated it must never be overwritten"). -/
def cacheSet (cell : Option (List Bool)) (bits : List Bool) :
    Except Unit (Option (List Bool)) :=
  match cell with
  | none => Except.ok (some bits)
  | some _ => Except.error ()

/-- The sanitized bit list of `from_bits_le` (lines 86-88): take the first
`size_in_bits` input bits and resize up to `size_in_bits` with `false`. -/
def sanitizeBits (p : Nat) (bits_le : List Bool) : List Bool :=
  let kept := bits_le.take (size_in_bits p)
  kept ++ List.replicate (size_in_bits p - kept.length) false

/-- The result of `from_bits_le`: the output field element's value, its
write-once bit cache, and the truth values of the assertions emitted to the
constraint system (the excess-bits check and the canonicity check). -/
structure FieldResult where
  value : Nat
  excessAsserts : List Bool
  canonAsserts : List Bool
  bits_le : Option (List Bool)
deriving DecidableEq, Repr

/-- Shallow embedding of `Field::<E>::from_bits_le` for modulus `p`.
`none` embeds a panic or an `E::halt`. -/
def from_bits_le (p : Nat) (bits_le : List Bool) : Option FieldResult :=
  let num_bits := bits_le.length
  let excessAsserts : List Bool :=
    if num_bits > size_in_bits p then
      [!((bits_le.drop (size_in_bits p)).foldl (fun acc bit => acc || bit) false)]
    else []
  let value := weightedSum p (bits_le.take (size_in_bits p)) 0 (1 % p)
  let canonAsserts? : Option (List Bool) :=
    if num_bits > size_in_data_bits p then canonSection p bits_le else some []
  match canonAsserts? with
  | none => none
  | some canonAsserts =>
      match cacheSet none (sanitizeBits p bits_le) with
      | Except.error _ => none
      | Except.ok cache => some ⟨value, excessAsserts, canonAsserts, cache⟩

/-- A built circuit is satisfied iff every emitted assertion holds under the
witness assignment. -/
def circuitSatisfied (r : FieldResult) : Bool :=
  (r.excessAsserts ++ r.canonAsserts).all (fun b => b)

/-- The run-length loop with the pending run folded eagerly into `previous`
(equivalent to `canonLoop`, see `canonLoop_fst`). -/
def canonSimple : List Bool → List Bool → Bool → List Bool
  | true :: ms, c :: cs, previous => canonSimple ms cs (previous && c)
  | false :: ms, c :: cs, previous => (!(previous && c)) :: canonSimple ms cs previous
  | _, _, _ => []

/-- The canonicity-check assertions emitted by `from_bits_le`, in closed form. -/
def canonExpected (p : Nat) (bits_le : List Bool) : List Bool :=
  if bits_le.length > size_in_data_bits p then
    canonSimple (toBitsBE (size_in_bits p) (p - 1))
      ((bits_le.take (size_in_bits p)).reverse) true
  else []

/-- Evaluation mode of a circuit value. -/
inductive Mode where
  | Constant
  | Public
  | Private
deriving BEq, DecidableEq, Repr

/-- `CircuitType<Boolean<E>>`: a compile-time-known constant boolean, or the
abstract `Public`/`Private` tag. -/
inductive BoolType where
  | Constant (b : Bool)
  | Public
  | Private
deriving BEq, DecidableEq, Repr

/-- The mode of a `CircuitType<Boolean<E>>`. -/
def BoolType.mode : BoolType → Mode
  | .Constant _ => Mode.Constant
  | .Public => Mode.Public
  | .Private => Mode.Private

/-- `CircuitType::is_constant`. -/
def BoolType.is_constant : BoolType → Bool
  | .Constant _ => true
  | _ => false

/-- `CircuitType::circuit()`: the constant circuit; halts on a witnessed tag. -/
def BoolType.circuit : BoolType → Option Bool
  | .Constant b => some b
  | _ => none

/-- `case.into_iter().map(|bit| bit.circuit()).collect()` (line 117); `none`
embeds the halt `circuit()` performs on a non-constant entry. -/
def circuitsOf : List BoolType → Option (List Bool)
  | [] => some []
  | b :: bs =>
      match b.circuit, circuitsOf bs with
      | some v, some vs => some (v :: vs)
      | _, _ => none

/-- `CircuitType<Field<E>>`, restricted to what `output_type` produces:
a constant field value, or the abstract `Public`/`Private` tag. -/
inductive FieldType where
  | Constant (v : Nat)
  | Public
  | Private
deriving BEq, DecidableEq, Repr

/-- `Count::is(num_constants, num_public, num_private, num_constraints)`. -/
structure CountIs where
  num_constants : Nat
  num_public : Nat
  num_private : Nat
  num_constraints : Nat
deriving DecidableEq, Repr

/-- `Metadata::count` for `from_bits_le` (lines 103-112); the Rust parameter
is named `case`.  `saturating_sub` is `Nat` subtraction. -/
def count (p : Nat) (shape : List BoolType) : CountIs :=
  match shape.all (fun bit => bit.is_constant) with
  | true => ⟨0, 0, 0, 0⟩
  | false =>
      let excess_constraints := shape.length - size_in_bits p
      let excess_private := excess_constraints - 1
      ⟨0, 0, 252 + excess_private, 418 + excess_constraints⟩

/-- Modelled from the spec: `Vec::eject_mode` of the shape (spec section 4.2) —
a fully `Constant` shape is `Constant`; any `Private` bit makes the result
`Private`; otherwise any `Public` bit makes it `Public`. -/
def eject_mode (shape : List BoolType) : Mode :=
  if shape.all (fun bit => bit.is_constant) then Mode.Constant
  else if shape.any (fun bit => bit.mode == Mode.Private) then Mode.Private
  else Mode.Public

/-- `Metadata::output_type` for `from_bits_le` (lines 114-123); the Rust
parameter is named `case`. -/
def output_type (p : Nat) (shape : List BoolType) : Option FieldType :=
  match eject_mode shape with
  | Mode.Constant =>
      match circuitsOf shape with
      | none => none
      | some bits_le =>
          match from_bits_le p bits_le with
          | none => none
          | some r => some (FieldType.Constant r.value)
  | Mode.Public => some FieldType.Public
  | Mode.Private => some FieldType.Private

/-- Modelled from the spec: the wire width of an `Address` record (the address
codec is outside this excerpt; only that it reads back exactly the bytes it
wrote matters, via a fixed width). -/
def ADDRESS_BYTES : Nat := 32

/-- Modelled from the spec: the wire width of a KZG `Commitment` record. -/
def COMMITMENT_BYTES : Nat := 48

/-- Little-endian base-256 digits of `n`, `k` bytes (`u64::write_le` is `k = 8`). -/
def bytesWriteLE : Nat → Nat → List Nat
  | 0, _ => []
  | k + 1, n => (n % 256) :: bytesWriteLE k (n / 256)

/-- Value of a little-endian byte sequence (`u64::read_le` reconstruction). -/
def bytesVal : List Nat → Nat
  | [] => 0
  | b :: bs => b + 256 * bytesVal bs

/-- `u64::read_le`: consume 8 bytes, little-endian. -/
def u64_read_le (bs : List Nat) : Option (Nat × List Nat) :=
  if 8 ≤ bs.length then some (bytesVal (bs.take 8), bs.drop 8) else none

/-- `PartialProverSolution` (partial_prover_solution.rs lines 19-24), with
address and commitment represented by their wire bytes. -/
structure PartialProverSolution where
  address : List Nat
  nonce : Nat
  commitment : List Nat
deriving DecidableEq, Repr

/-- `PartialProverSolution::eq` (lines 46-51): componentwise equality on
address, nonce and commitment. -/
def PartialProverSolution.eq (a b : PartialProverSolution) : Prop :=
  a.address = b.address ∧ a.nonce = b.nonce ∧ a.commitment = b.commitment

/-- `PartialProverSolution::write_le` (lines 63-69): the address, then the
nonce as a little-endian `u64`, then the commitment. -/
def PartialProverSolution.write_le (s : PartialProverSolution) : List Nat :=
  s.address ++ bytesWriteLE 8 s.nonce ++ s.commitment

/-- `PartialProverSolution::read_le` (lines 71-79): read the address, then the
nonce, then the commitment, returning the unread remainder.  Modelled from the
spec where the component codecs are concerned: address and commitment consume
exactly their fixed widths. -/
def PartialProverSolution.read_le (bs : List Nat) :
    Option (PartialProverSolution × List Nat) :=
  if ADDRESS_BYTES ≤ bs.length then
    match u64_read_le (bs.drop ADDRESS_BYTES) with
    | none => none
    | some (nonce, rest) =>
        if COMMITMENT_BYTES ≤ rest.length then
          some (⟨bs.take ADDRESS_BYTES, nonce, rest.take COMMITMENT_BYTES⟩,
            rest.drop COMMITMENT_BYTES)
        else none
  else none

/-! ### Arithmetic helper lemmas -/

theorem leVal_lt (l : List Bool) : leVal l < 2 ^ l.length := by
  induction l with
  | nil => simp [leVal]
  | cons b bs ih =>
      simp only [leVal, List.length_cons, pow_succ]
      cases b <;> simp <;> omega

theorem leVal_append_singleton (l : List Bool) (b : Bool) :
    leVal (l ++ [b]) = leVal l + 2 ^ l.length * (if b then 1 else 0) := by
  induction l with
  | nil => simp [leVal]
  | cons c cs ih =>
      simp only [List.cons_append, leVal, List.append_eq, ih, List.length_cons, pow_succ]
      ring

theorem beVal_cons (b : Bool) (l : List Bool) :
    beVal (b :: l) = beVal l + 2 ^ l.length * (if b then 1 else 0) := by
  simp [beVal, List.reverse_cons, leVal_append_singleton]

theorem beVal_lt (l : List Bool) : beVal l < 2 ^ l.length := by
  have := leVal_lt l.reverse
  simpa [beVal] using this

theorem length_toBitsLE (w n : Nat) : (toBitsLE w n).length = w := by
  induction w generalizing n with
  | zero => simp [toBitsLE]
  | succ w ih => simp [toBitsLE, ih]

theorem length_toBitsBE (w n : Nat) : (toBitsBE w n).length = w := by
  simp [toBitsBE, length_toBitsLE]

theorem leVal_toBitsLE (w n : Nat) : leVal (toBitsLE w n) = n % 2 ^ w := by
  induction w generalizing n with
  | zero => simp [toBitsLE, leVal, Nat.mod_one]
  | succ w ih =>
      simp only [toBitsLE, leVal, ih]
      have hb : (if (n % 2 == 1) = true then (1 : Nat) else 0) = n % 2 := by
        rcases Nat.mod_two_eq_zero_or_one n with h | h <;> simp [h]
      rw [hb, pow_succ, Nat.mul_comm (2 ^ w) 2, Nat.mod_mul]

theorem beVal_toBitsBE (w n : Nat) : beVal (toBitsBE w n) = n % 2 ^ w := by
  simp [beVal, toBitsBE, leVal_toBitsLE]

theorem leVal_of_all_true (l : List Bool) (h : ∀ b ∈ l, b = true) :
    leVal l = 2 ^ l.length - 1 := by
  induction l with
  | nil => simp [leVal]
  | cons b bs ih =>
      have hb : b = true := h b (by simp)
      have hbs := ih (fun x hx => h x (by simp [hx]))
      have hpos : 1 ≤ 2 ^ bs.length := Nat.one_le_two_pow
      subst hb
      have hcons : leVal (true :: bs) = 1 + 2 * leVal bs := by simp [leVal]
      have hlen : (2 : Nat) ^ (true :: bs).length = 2 ^ bs.length * 2 := by
        simp [List.length_cons, pow_succ]
      rw [hcons, hlen, hbs]
      omega

theorem bitLenAux_bound : ∀ fuel n, n ≤ fuel → n < 2 ^ bitLenAux fuel n := by
  intro fuel
  induction fuel with
  | zero => intro n hn; interval_cases n; simp [bitLenAux]
  | succ fuel ih =>
      intro n hn
      by_cases h0 : n = 0
      · simp [bitLenAux, h0]
      · have hrec : n / 2 ≤ fuel := by omega
        have := ih (n / 2) hrec
        simp only [bitLenAux, h0, if_false, pow_succ]
        omega

theorem size_in_bits_bound (p : Nat) : p < 2 ^ size_in_bits p :=
  bitLenAux_bound p p (Nat.le_refl p)

theorem bitLenAux_pos : ∀ fuel n, 1 ≤ n → n ≤ fuel → 1 ≤ bitLenAux fuel n := by
  intro fuel
  cases fuel with
  | zero => intro n h1 h2; omega
  | succ fuel =>
      intro n h1 _
      have h0 : ¬ n = 0 := by omega
      simp [bitLenAux, h0]

theorem size_in_bits_pos (p : Nat) (hp : 1 ≤ p) : 1 ≤ size_in_bits p :=
  bitLenAux_pos p p hp (Nat.le_refl p)

theorem weightedSum_mod (p : Nat) :
    ∀ (bs : List Bool) (out coeff : Nat),
      weightedSum p bs out coeff % p = (out + leVal bs * coeff) % p := by
  intro bs
  induction bs with
  | nil => intro out coeff; simp [weightedSum, leVal]
  | cons b bs ih =>
      intro out coeff
      rw [weightedSum, ih]
      have h1 : (out + (if b then 1 else 0) * coeff) % p
          ≡ out + (if b then 1 else 0) * coeff [MOD p] := Nat.mod_modEq _ _
      have h2 : coeff * 2 % p ≡ coeff * 2 [MOD p] := Nat.mod_modEq _ _
      have h3 := Nat.ModEq.add h1 (Nat.ModEq.mul_left (leVal bs) h2)
      have h4 : out + (if b then 1 else 0) * coeff + leVal bs * (coeff * 2)
          = out + leVal (b :: bs) * coeff := by
        simp only [leVal]; ring
      rw [h4] at h3
      exact h3

theorem weightedSum_lt (p : Nat) (hp : 0 < p) :
    ∀ (bs : List Bool) (out coeff : Nat), out < p → weightedSum p bs out coeff < p := by
  intro bs
  induction bs with
  | nil => intro out coeff h; simpa [weightedSum] using h
  | cons b bs ih =>
      intro out coeff _
      exact ih _ _ (Nat.mod_lt _ hp)

theorem weightedSum_value (p : Nat) (hp : 2 ≤ p) (bs : List Bool) :
    weightedSum p bs 0 (1 % p) = leVal bs % p := by
  have h1 : 1 % p = 1 := Nat.mod_eq_of_lt (by omega)
  have hlt : weightedSum p bs 0 (1 % p) < p := weightedSum_lt p (by omega) bs 0 (1 % p) (by omega)
  have := weightedSum_mod p bs 0 (1 % p)
  rw [Nat.mod_eq_of_lt hlt] at this
  simpa [h1] using this

/-! ### The run-length comparison: characterization -/

theorem canonLoop_fst :
    ∀ (ms cs : List Bool) (previous : Bool) (sequence : List Bool),
      (canonLoop ms cs previous sequence).1
        = canonSimple ms cs (sequence.foldl (fun a b => a && b) previous) := by
  intro ms
  induction ms with
  | nil => intro cs previous sequence; cases cs <;> simp [canonLoop, canonSimple]
  | cons m ms ih =>
      intro cs previous sequence
      cases cs with
      | nil => cases m <;> simp [canonLoop, canonSimple]
      | cons c cs =>
          cases m with
          | true =>
              rw [canonLoop, ih, List.foldl_append]
              simp [canonSimple]
          | false =>
              have hfold : (if sequence.isEmpty then previous
                    else sequence.foldl (fun a b => a && b) previous)
                  = sequence.foldl (fun a b => a && b) previous := by
                cases sequence <;> simp
              rw [canonLoop]
              simp only [hfold, canonSimple, ih, List.foldl_nil]

theorem canonLoop_snd_empty :
    ∀ (ms cs : List Bool) (previous : Bool) (sequence : List Bool),
      ms.length = cs.length → ms.getLast? = some false →
      (canonLoop ms cs previous sequence).2 = [] := by
  intro ms
  induction ms with
  | nil => intro cs previous sequence _ hlast; simp at hlast
  | cons m ms ih =>
      intro cs previous sequence hlen hlast
      cases cs with
      | nil => simp at hlen
      | cons c cs =>
          have hlen' : ms.length = cs.length := by simpa using hlen
          cases ms with
          | nil =>
              have hm : m = false := by simpa [List.getLast?] using hlast
              subst hm
              simp [canonLoop, canonLoop_fst]
          | cons m2 ms2 =>
              have hlast' : (m2 :: ms2).getLast? = some false := by
                rwa [List.getLast?_cons_cons] at hlast
              cases m with
              | true => rw [canonLoop]; exact ih _ _ _ hlen' hlast'
              | false =>
                  rw [canonLoop]
                  exact ih _ _ _ hlen' hlast'

theorem canonSimple_false_all :
    ∀ (ms cs : List Bool), (canonSimple ms cs false).all (fun b => b) = true := by
  intro ms
  induction ms with
  | nil => intro cs; cases cs <;> simp [canonSimple]
  | cons m ms ih =>
      intro cs
      cases cs with
      | nil => cases m <;> simp [canonSimple]
      | cons c cs =>
          cases m with
          | true => simpa [canonSimple] using ih cs
          | false => simpa [canonSimple] using ih cs

theorem canonSimple_true_iff :
    ∀ (ms cs : List Bool), ms.length = cs.length →
      ((canonSimple ms cs true).all (fun b => b) = true ↔ beVal cs ≤ beVal ms) := by
  intro ms
  induction ms with
  | nil =>
      intro cs hlen
      have hcs : cs = [] := by cases cs <;> simp_all
      subst hcs
      simp [canonSimple]
  | cons m ms ih =>
      intro cs hlen
      cases cs with
      | nil => simp at hlen
      | cons c cs =>
          have hlen' : ms.length = cs.length := by simpa using hlen
          have hclen : cs.length = ms.length := hlen'.symm
          rw [beVal_cons, beVal_cons, hclen]
          cases m with
          | true =>
              cases c with
              | true =>
                  have := ih cs hlen'
                  simpa [canonSimple] using this
              | false =>
                  have hlhs : (canonSimple (true :: ms) (false :: cs) true).all (fun b => b)
                      = true := by
                    simpa [canonSimple] using canonSimple_false_all ms cs
                  have hb := beVal_lt cs
                  rw [hclen] at hb
                  exact iff_of_true hlhs (by simp; omega)
          | false =>
              cases c with
              | true =>
                  have hb := beVal_lt ms
                  simp only [canonSimple, Bool.and_true, Bool.not_true, List.all_cons,
                    Bool.false_and, Bool.false_eq_true, false_iff]
                  simp
                  omega
              | false =>
                  have := ih cs hlen'
                  simpa [canonSimple] using this

theorem canonSimple_eq_nil_iff :
    ∀ (ms cs : List Bool) (previous : Bool), ms.length = cs.length →
      (canonSimple ms cs previous = [] ↔ ∀ m ∈ ms, m = true) := by
  intro ms
  induction ms with
  | nil => intro cs previous _; simp [canonSimple]
  | cons m ms ih =>
      intro cs previous hlen
      cases cs with
      | nil => simp at hlen
      | cons c cs =>
          have hlen' : ms.length = cs.length := by simpa using hlen
          cases m with
          | true => simpa [canonSimple] using ih cs (previous && c) hlen'
          | false => simp [canonSimple]

/-! ### Closed form of `from_bits_le` -/

theorem pattern_getLast (p : Nat) (hp : 2 ≤ p) (hodd : p % 2 = 1) :
    (toBitsBE (size_in_bits p) (p - 1)).getLast? = some false := by
  obtain ⟨w, hw⟩ : ∃ w, size_in_bits p = w + 1 := by
    have := size_in_bits_pos p (by omega)
    exact ⟨size_in_bits p - 1, by omega⟩
  have hm : (p - 1) % 2 = 0 := by omega
  rw [toBitsBE, List.getLast?_reverse, hw, toBitsLE]
  simp [hm]

theorem canonSection_eq (p : Nat) (hp : 2 ≤ p) (hodd : p % 2 = 1) (bits : List Bool)
    (hlen : size_in_bits p ≤ bits.length) :
    canonSection p bits
      = some (canonSimple (toBitsBE (size_in_bits p) (p - 1))
          ((bits.take (size_in_bits p)).reverse) true) := by
  have hdrop : bits.length - (bits.length - size_in_bits p) = size_in_bits p := by omega
  have hbe : bits.reverse.drop (bits.length - size_in_bits p)
      = (bits.take (size_in_bits p)).reverse := by
    rw [List.drop_reverse, hdrop]
  have hlens : (toBitsBE (size_in_bits p) (p - 1)).length
      = ((bits.take (size_in_bits p)).reverse).length := by
    rw [length_toBitsBE, List.length_reverse, List.length_take]
    exact (Nat.min_eq_left hlen).symm
  have hempty : (canonLoop (toBitsBE (size_in_bits p) (p - 1))
      ((bits.take (size_in_bits p)).reverse) true []).2 = [] :=
    canonLoop_snd_empty _ _ _ _ (by simpa using hlens) (pattern_getLast p hp hodd)
  have hfst := canonLoop_fst (toBitsBE (size_in_bits p) (p - 1))
      ((bits.take (size_in_bits p)).reverse) true []
  simp only [canonSection, hbe]
  rw [if_neg (by omega), if_pos hlens]
  simp [hempty, hfst]

theorem from_bits_le_eq (p : Nat) (hp : 2 ≤ p) (hodd : p % 2 = 1) (bits : List Bool) :
    from_bits_le p bits = some
      ⟨weightedSum p (bits.take (size_in_bits p)) 0 (1 % p),
       (if bits.length > size_in_bits p then
          [!((bits.drop (size_in_bits p)).foldl (fun acc bit => acc || bit) false)]
        else []),
       canonExpected p bits, some (sanitizeBits p bits)⟩ := by
  by_cases hD : bits.length > size_in_data_bits p
  · have h1 := size_in_bits_pos p (by omega)
    have hW : size_in_bits p ≤ bits.length := by
      have h2 : size_in_data_bits p = size_in_bits p - 1 := rfl
      omega
    simp only [from_bits_le, canonExpected, if_pos hD,
      canonSection_eq p hp hodd bits hW, cacheSet]
  · simp only [from_bits_le, canonExpected, if_neg hD, cacheSet]

/-! ### Remaining helper lemmas -/

theorem foldl_or_eq (l : List Bool) (init : Bool) :
    l.foldl (fun acc bit => acc || bit) init = (init || l.any (fun b => b)) := by
  induction l generalizing init with
  | nil => simp
  | cons b bs ih => simp [ih, Bool.or_assoc]

theorem sanitizeBits_length (p : Nat) (bits : List Bool) :
    (sanitizeBits p bits).length = size_in_bits p := by
  simp only [sanitizeBits, List.length_append, List.length_replicate, List.length_take]
  omega

theorem from_bits_le_nil (p : Nat) :
    from_bits_le p [] = some ⟨0, [], [], some (sanitizeBits p [])⟩ := by
  have h1 : ¬ (([] : List Bool).length > size_in_bits p) := by simp
  have h2 : ¬ (([] : List Bool).length > size_in_data_bits p) := by simp
  simp [from_bits_le, h1, h2, cacheSet, weightedSum]

theorem from_bits_le_value (p : Nat) (bits : List Bool) (r : FieldResult)
    (hr : from_bits_le p bits = some r) :
    r.value = weightedSum p (bits.take (size_in_bits p)) 0 (1 % p) := by
  simp only [from_bits_le] at hr
  split at hr
  · exact absurd hr (by simp)
  · simp only [cacheSet] at hr
    obtain rfl : (⟨weightedSum p (bits.take (size_in_bits p)) 0 (1 % p), _, _, _⟩
        : FieldResult) = r := by exact Option.some.inj hr
    rfl

/-! ### Claim theorems -/

/-- C1: for inputs long enough to trigger the canonicity check and whose bits
beyond the field bit width are all zero, the constraints emitted by the
run-length comparison are satisfiable iff the value of the first
`size_in_bits` bits is strictly below the modulus; at modulus 11, the bits of
11 are unsatisfiable while the bits of 10 are satisfiable with value 10. -/
theorem c1_canonicity_satisfiability (p : Nat) (hp : 2 ≤ p) (hodd : p % 2 = 1)
    (bits : List Bool)
    (hlen : bits.length > size_in_data_bits p)
    (hexcess : ∀ b ∈ bits.drop (size_in_bits p), b = false) :
    (∃ r, from_bits_le p bits = some r ∧
        (circuitSatisfied r = true ↔ leVal (bits.take (size_in_bits p)) < p)) ∧
    (from_bits_le 11 [true, true, false, true]).map circuitSatisfied = some false ∧
    (from_bits_le 11 [false, true, false, true]).map
        (fun r => (circuitSatisfied r, r.value)) = some (true, 10) := by
  refine ⟨?_, by decide, by decide⟩
  refine ⟨_, from_bits_le_eq p hp hodd bits, ?_⟩
  have hWpos := size_in_bits_pos p (by omega)
  have hWle : size_in_bits p ≤ bits.length := by
    have hD : size_in_data_bits p = size_in_bits p - 1 := rfl
    omega
  have hex : (if bits.length > size_in_bits p then
      [!((bits.drop (size_in_bits p)).foldl (fun acc bit => acc || bit) false)]
      else []).all (fun b => b) = true := by
    by_cases h : bits.length > size_in_bits p
    · have hany : (bits.drop (size_in_bits p)).any (fun b => b) = false := by
        rw [List.any_eq_false]
        intro x hx
        simp [hexcess x hx]
      simp [h, foldl_or_eq, hany]
    · simp [h]
  have hclen : (toBitsBE (size_in_bits p) (p - 1)).length
      = ((bits.take (size_in_bits p)).reverse).length := by
    rw [length_toBitsBE, List.length_reverse, List.length_take]
    exact (Nat.min_eq_left hWle).symm
  have hcanon := canonSimple_true_iff (toBitsBE (size_in_bits p) (p - 1))
    ((bits.take (size_in_bits p)).reverse) hclen
  have hbe1 : beVal ((bits.take (size_in_bits p)).reverse)
      = leVal (bits.take (size_in_bits p)) := by simp [beVal]
  have hbe2 : beVal (toBitsBE (size_in_bits p) (p - 1)) = p - 1 := by
    rw [beVal_toBitsBE]
    exact Nat.mod_eq_of_lt (by have := size_in_bits_bound p; omega)
  rw [hbe1, hbe2] at hcanon
  simp only [circuitSatisfied, canonExpected, if_pos hlen, List.all_append, hex,
    Bool.true_and]
  rw [hcanon]
  omega

/-- C1 witness. -/
theorem c1_witness :
    ∃ r, from_bits_le 11 [true, true, false, true] = some r ∧
      (circuitSatisfied r = true
        ↔ leVal ([true, true, false, true].take (size_in_bits 11)) < 11) :=
  (c1_canonicity_satisfiability 11 (by decide) (by decide) [true, true, false, true]
    (by decide) (by decide)).1

/-- C2: reconstructing a field element from its canonical little-endian bit
decomposition returns its value, and the returned element's cached bit
decomposition has exactly `size_in_bits` entries. -/
theorem c2_roundtrip (p n : Nat) (hp : 2 ≤ p) (hodd : p % 2 = 1) (hn : n < p) :
    ∃ r, from_bits_le p (toBitsLE (size_in_bits p) n) = some r ∧ r.value = n ∧
      ∃ cached, r.bits_le = some cached ∧ cached.length = size_in_bits p := by
  refine ⟨_, from_bits_le_eq p hp hodd _, ?_, ?_⟩
  · have hlen : (toBitsLE (size_in_bits p) n).length = size_in_bits p :=
      length_toBitsLE _ _
    have htake : (toBitsLE (size_in_bits p) n).take (size_in_bits p)
        = toBitsLE (size_in_bits p) n := by
      have h := List.take_length (toBitsLE (size_in_bits p) n)
      rwa [hlen] at h
    have hbound := size_in_bits_bound p
    have hmod : n % 2 ^ size_in_bits p = n := Nat.mod_eq_of_lt (by omega)
    show weightedSum p _ 0 (1 % p) = n
    rw [htake, weightedSum_value p hp, leVal_toBitsLE, hmod, Nat.mod_eq_of_lt hn]
  · exact ⟨_, rfl, sanitizeBits_length p _⟩

/-- C2 witness. -/
theorem c2_witness :
    ∃ r, from_bits_le 11 (toBitsLE (size_in_bits 11) 10) = some r ∧ r.value = 10 ∧
      ∃ cached, r.bits_le = some cached ∧ cached.length = size_in_bits 11 :=
  c2_roundtrip 11 10 (by decide) (by decide) (by decide)

/-- C3: for any input, the returned value is the weighted sum of the first
`size_in_bits` bits in the field's arithmetic, i.e. the little-endian value of
the truncated input reduced modulo `p`; the empty input reconstructs to the
additive identity. -/
theorem c3_value (p : Nat) (hp : 2 ≤ p) (bits : List Bool) (r : FieldResult)
    (hr : from_bits_le p bits = some r) :
    r.value = leVal (bits.take (size_in_bits p)) % p ∧
    ∃ r0, from_bits_le p [] = some r0 ∧ r0.value = 0 := by
  constructor
  · rw [from_bits_le_value p bits r hr, weightedSum_value p hp]
  · exact ⟨_, from_bits_le_nil p, rfl⟩

/-- C3 witness. -/
theorem c3_witness :
    (⟨1, [], [], some [true, false, false, false]⟩ : FieldResult).value
        = leVal ([true].take (size_in_bits 11)) % 11 ∧
    ∃ r0, from_bits_le 11 [] = some r0 ∧ r0.value = 0 :=
  c3_value 11 (by decide) [true] ⟨1, [], [], some [true, false, false, false]⟩
    (by decide)

/-- C4: inputs of length at most `size_in_data_bits` emit no canonicity-check
assertions; longer inputs always trigger the canonicity check (it emits at
least one assertion), and `from_bits_le` completes without panicking on every
input length. -/
theorem c4_boundary (p : Nat) (hp : 2 ≤ p) (hodd : p % 2 = 1) (bits : List Bool) :
    (bits.length ≤ size_in_data_bits p →
       ∃ r, from_bits_le p bits = some r ∧ r.canonAsserts = []) ∧
    (size_in_data_bits p < bits.length →
       ∃ r, from_bits_le p bits = some r ∧ r.canonAsserts ≠ []) := by
  constructor
  · intro h
    refine ⟨_, from_bits_le_eq p hp hodd bits, ?_⟩
    show canonExpected p bits = []
    rw [canonExpected, if_neg (by omega)]
  · intro h
    refine ⟨_, from_bits_le_eq p hp hodd bits, ?_⟩
    show canonExpected p bits ≠ []
    have hWpos := size_in_bits_pos p (by omega)
    have hWle : size_in_bits p ≤ bits.length := by
      have hD : size_in_data_bits p = size_in_bits p - 1 := rfl
      omega
    have hclen : (toBitsBE (size_in_bits p) (p - 1)).length
        = ((bits.take (size_in_bits p)).reverse).length := by
      rw [length_toBitsBE, List.length_reverse, List.length_take]
      exact (Nat.min_eq_left hWle).symm
    rw [canonExpected, if_pos (by omega : bits.length > size_in_data_bits p)]
    intro hnil
    rw [canonSimple_eq_nil_iff _ _ _ hclen] at hnil
    have hall : ∀ b ∈ toBitsLE (size_in_bits p) (p - 1), b = true := by
      intro b hb
      exact hnil b (by simpa [toBitsBE, List.mem_reverse] using hb)
    have hv := leVal_of_all_true _ hall
    rw [leVal_toBitsLE, length_toBitsLE] at hv
    have hb := size_in_bits_bound p
    have hmod : (p - 1) % 2 ^ size_in_bits p = p - 1 := Nat.mod_eq_of_lt (by omega)
    rw [hmod] at hv
    have hpow : 1 ≤ 2 ^ size_in_bits p := Nat.one_le_two_pow
    omega

/-- C4 witness. -/
theorem c4_witness :
    (∃ r, from_bits_le 11 [true, true] = some r ∧ r.canonAsserts = []) ∧
    (∃ r, from_bits_le 11 [true, true, false, true] = some r ∧
      r.canonAsserts ≠ []) :=
  ⟨(c4_boundary 11 (by decide) (by decide) [true, true]).1 (by decide),
   (c4_boundary 11 (by decide) (by decide) [true, true, false, true]).2 (by decide)⟩

/-- C5: an input longer than `size_in_bits` with a true bit beyond index
`size_in_bits - 1` yields an unsatisfiable circuit: the excess bits are
OR-reduced into one boolean asserted equal to the constant zero, and that
single assertion fails. -/
theorem c5_excess_nonzero (p : Nat) (hp : 2 ≤ p) (hodd : p % 2 = 1)
    (bits : List Bool)
    (hlen : bits.length > size_in_bits p)
    (hbit : true ∈ bits.drop (size_in_bits p)) :
    ∃ r, from_bits_le p bits = some r ∧ r.excessAsserts = [false] ∧
      circuitSatisfied r = false := by
  refine ⟨_, from_bits_le_eq p hp hodd bits, ?_, ?_⟩
  · show (if bits.length > size_in_bits p then _ else _) = [false]
    have hany : (bits.drop (size_in_bits p)).any (fun b => b) = true := by
      rw [List.any_eq_true]; exact ⟨true, hbit, rfl⟩
    simp [hlen, foldl_or_eq, hany]
  · have hany : (bits.drop (size_in_bits p)).any (fun b => b) = true := by
      rw [List.any_eq_true]; exact ⟨true, hbit, rfl⟩
    simp [circuitSatisfied, hlen, foldl_or_eq, hany]

/-- C5 witness. -/
theorem c5_witness :
    ∃ r, from_bits_le 11 [false, false, false, false, true] = some r ∧
      r.excessAsserts = [false] ∧ circuitSatisfied r = false :=
  c5_excess_nonzero 11 (by decide) (by decide) [false, false, false, false, true]
    (by decide) (by decide)

/-- C6: appending any number of constant-false bits to a canonical bit
sequence and reconstructing yields the same value as without the padding. -/
theorem c6_zero_padding (p n k : Nat) (hp : 2 ≤ p) (hodd : p % 2 = 1) (hn : n < p) :
    ∃ r r2, from_bits_le p (toBitsLE (size_in_bits p) n) = some r ∧
      from_bits_le p (toBitsLE (size_in_bits p) n ++ List.replicate k false)
        = some r2 ∧
      r2.value = r.value := by
  refine ⟨_, _, from_bits_le_eq p hp hodd _, from_bits_le_eq p hp hodd _, ?_⟩
  have hlen : (toBitsLE (size_in_bits p) n).length = size_in_bits p :=
    length_toBitsLE _ _
  have h1 : (toBitsLE (size_in_bits p) n).take (size_in_bits p)
      = toBitsLE (size_in_bits p) n := by
    have h := List.take_length (toBitsLE (size_in_bits p) n)
    rwa [hlen] at h
  have h2 : (toBitsLE (size_in_bits p) n ++ List.replicate k false).take
      (size_in_bits p) = toBitsLE (size_in_bits p) n := by
    have h := List.take_left (toBitsLE (size_in_bits p) n) (List.replicate k false)
    rwa [hlen] at h
  show weightedSum p _ 0 (1 % p) = weightedSum p _ 0 (1 % p)
  rw [h1, h2]

/-- C6 witness. -/
theorem c6_witness :
    ∃ r r2, from_bits_le 11 (toBitsLE (size_in_bits 11) 10) = some r ∧
      from_bits_le 11 (toBitsLE (size_in_bits 11) 10 ++ List.replicate 3 false)
        = some r2 ∧
      r2.value = r.value :=
  c6_zero_padding 11 10 3 (by decide) (by decide) (by decide)

theorem circuitsOf_all_constant (shape : List BoolType)
    (h : shape.all (fun bit => bit.is_constant) = true) :
    ∃ bits, circuitsOf shape = some bits := by
  induction shape with
  | nil => exact ⟨[], rfl⟩
  | cons b bs ih =>
      simp only [List.all_cons, Bool.and_eq_true] at h
      obtain ⟨bits, hbits⟩ := ih h.2
      cases b with
      | Constant v => exact ⟨v :: bits, by simp [circuitsOf, BoolType.circuit, hbits]⟩
      | Public => simp [BoolType.is_constant] at h
      | Private => simp [BoolType.is_constant] at h

/-- C7: the cost oracle is zero in all four categories for a fully constant
shape; otherwise, with `e` the number of excess bits (saturating), it is
`(0, 0, 252 + (e - 1), 418 + e)`; hence for witnessed shapes the constraint
count is exactly 418 at zero excess, is non-decreasing in the shape length,
each excess bit adds one constraint, and every excess bit except the first
also adds one private variable. -/
theorem c7_count (p : Nat) (shape : List BoolType) :
    (shape.all (fun bit => bit.is_constant) = true → count p shape = ⟨0, 0, 0, 0⟩) ∧
    (shape.all (fun bit => bit.is_constant) = false →
       count p shape = ⟨0, 0, 252 + (shape.length - size_in_bits p - 1),
         418 + (shape.length - size_in_bits p)⟩) ∧
    (shape.all (fun bit => bit.is_constant) = false →
       shape.length ≤ size_in_bits p → (count p shape).num_constraints = 418) ∧
    (∀ shape2 : List BoolType,
       shape.all (fun bit => bit.is_constant) = false →
       shape2.all (fun bit => bit.is_constant) = false →
       shape.length ≤ shape2.length →
       (count p shape).num_constraints ≤ (count p shape2).num_constraints) ∧
    (∀ (shape2 : List BoolType) (e : Nat),
       shape.all (fun bit => bit.is_constant) = false →
       shape2.all (fun bit => bit.is_constant) = false →
       shape.length = size_in_bits p + e →
       shape2.length = size_in_bits p + e + 1 →
       (count p shape2).num_constraints = (count p shape).num_constraints + 1 ∧
       (count p shape2).num_private
         = (count p shape).num_private + (if e = 0 then 0 else 1)) := by
  refine ⟨?_, ?_, ?_, ?_, ?_⟩
  · intro h; simp [count, h]
  · intro h; simp [count, h]
  · intro h hle; simp [count, h]; omega
  · intro shape2 h1 h2 hlen
    simp [count, h1, h2]
    omega
  · intro shape2 e h1 h2 hl1 hl2
    simp [count, h1, h2, hl1, hl2]
    constructor
    · omega
    · split <;> omega

/-- C7 witness. -/
theorem c7_witness :
    count 11 [BoolType.Constant true] = ⟨0, 0, 0, 0⟩ ∧
    count 11 [BoolType.Public] = ⟨0, 0,
      252 + ([BoolType.Public].length - size_in_bits 11 - 1),
      418 + ([BoolType.Public].length - size_in_bits 11)⟩ :=
  ⟨(c7_count 11 [BoolType.Constant true]).1 (by decide),
   (c7_count 11 [BoolType.Public]).2.1 (by decide)⟩

/-- C8: on a fully constant shape, `output_type` literally invokes
`from_bits_le` on the constant bit values and returns the result tagged
`Constant`; if any bit is `Private` it returns the abstract tag `Private`;
otherwise, if any bit is `Public`, the abstract tag `Public`. -/
theorem c8_output_type (p : Nat) (hp : 2 ≤ p) (hodd : p % 2 = 1)
    (shape : List BoolType) :
    (shape.all (fun bit => bit.is_constant) = true →
       ∃ bits r, circuitsOf shape = some bits ∧ from_bits_le p bits = some r ∧
         output_type p shape = some (FieldType.Constant r.value)) ∧
    ((∃ b ∈ shape, b = BoolType.Private) →
       output_type p shape = some FieldType.Private) ∧
    ((∀ b ∈ shape, b ≠ BoolType.Private) → (∃ b ∈ shape, b = BoolType.Public) →
       output_type p shape = some FieldType.Public) := by
  refine ⟨?_, ?_, ?_⟩
  · intro h
    obtain ⟨bits, hbits⟩ := circuitsOf_all_constant shape h
    refine ⟨bits, _, hbits, from_bits_le_eq p hp hodd bits, ?_⟩
    simp [output_type, eject_mode, h, hbits, from_bits_le_eq p hp hodd bits]
  · rintro ⟨b, hmem, rfl⟩
    have hall : shape.all (fun bit => bit.is_constant) = false := by
      rw [List.all_eq_false]
      exact ⟨BoolType.Private, hmem, by simp [BoolType.is_constant]⟩
    have hany : shape.any (fun bit => bit.mode == Mode.Private) = true := by
      rw [List.any_eq_true]
      exact ⟨BoolType.Private, hmem, by rfl⟩
    simp [output_type, eject_mode, hall, hany]
  · rintro h1 ⟨b, hmem, rfl⟩
    have hall : shape.all (fun bit => bit.is_constant) = false := by
      rw [List.all_eq_false]
      exact ⟨BoolType.Public, hmem, by simp [BoolType.is_constant]⟩
    have hany : shape.any (fun bit => bit.mode == Mode.Private) = false := by
      rw [List.any_eq_false]
      intro x hx
      cases x with
      | Constant v =>
          show ¬(Mode.Constant == Mode.Private) = true
          decide
      | Public => decide
      | Private => exact absurd rfl (h1 _ hx)
    simp [output_type, eject_mode, hall, hany]

/-- C8 witness. -/
theorem c8_witness :
    (∃ bits r, circuitsOf [BoolType.Constant true] = some bits ∧
       from_bits_le 11 bits = some r ∧
       output_type 11 [BoolType.Constant true] = some (FieldType.Constant r.value)) ∧
    output_type 11 [BoolType.Public, BoolType.Private] = some FieldType.Private ∧
    output_type 11 [BoolType.Constant false, BoolType.Public]
      = some FieldType.Public :=
  ⟨(c8_output_type 11 (by decide) (by decide) [BoolType.Constant true]).1 (by decide),
   (c8_output_type 11 (by decide) (by decide) [BoolType.Public, BoolType.Private]).2.1
     ⟨BoolType.Private, by simp, rfl⟩,
   (c8_output_type 11 (by decide) (by decide)
     [BoolType.Constant false, BoolType.Public]).2.2
     (by rintro b hb rfl; simp at hb)
     ⟨BoolType.Public, by simp, rfl⟩⟩

/-- C9: setting an already-populated bit cache fails for every old and new
content (so `from_bits_le` would halt rather than return), and on the normal
path every element `from_bits_le` returns has its cache populated, exactly
once, with the sanitized bits — it was set from the fresh empty cell. -/
theorem c9_cache_write_once (p : Nat) (bits : List Bool) (r : FieldResult)
    (hr : from_bits_le p bits = some r) :
    (∀ (old fresh : List Bool), cacheSet (some old) fresh = Except.error ()) ∧
    r.bits_le = some (sanitizeBits p bits) := by
  constructor
  · intro old fresh; rfl
  · simp only [from_bits_le] at hr
    split at hr
    · exact absurd hr (by simp)
    · simp only [cacheSet] at hr
      obtain rfl : (⟨_, _, _, some (sanitizeBits p bits)⟩ : FieldResult) = r :=
        Option.some.inj hr
      rfl

/-- C9 witness. -/
theorem c9_witness :
    (∀ (old fresh : List Bool), cacheSet (some old) fresh = Except.error ()) ∧
    (⟨1, [], [], some [true, false, false, false]⟩ : FieldResult).bits_le
      = some (sanitizeBits 11 [true]) :=
  c9_cache_write_once 11 [true] ⟨1, [], [], some [true, false, false, false]⟩
    (by decide)

theorem length_bytesWriteLE (k n : Nat) : (bytesWriteLE k n).length = k := by
  induction k generalizing n with
  | zero => simp [bytesWriteLE]
  | succ k ih => simp [bytesWriteLE, ih]

theorem bytesVal_bytesWriteLE (k n : Nat) :
    bytesVal (bytesWriteLE k n) = n % 256 ^ k := by
  induction k generalizing n with
  | zero => simp [bytesWriteLE, bytesVal, Nat.mod_one]
  | succ k ih =>
      simp only [bytesWriteLE, bytesVal, ih]
      rw [pow_succ, Nat.mul_comm (256 ^ k) 256, Nat.mod_mul]

/-- C10: writing a `PartialProverSolution` with `write_le` (address, then the
nonce as a little-endian `u64`, then the commitment) and reading the bytes
back with `read_le` returns a solution equal to the original, componentwise in
the sense of `PartialProverSolution::eq`, with no bytes left over. -/
theorem c10_bytes_roundtrip (s : PartialProverSolution)
    (ha : s.address.length = ADDRESS_BYTES)
    (hc : s.commitment.length = COMMITMENT_BYTES)
    (hn : s.nonce < 2 ^ 64) :
    ∃ t, PartialProverSolution.read_le (PartialProverSolution.write_le s)
        = some (t, []) ∧ PartialProverSolution.eq t s := by
  have hassoc : PartialProverSolution.write_le s
      = s.address ++ (bytesWriteLE 8 s.nonce ++ s.commitment) := by
    rw [PartialProverSolution.write_le, List.append_assoc]
  have htake1 : (s.address ++ (bytesWriteLE 8 s.nonce ++ s.commitment)).take
      ADDRESS_BYTES = s.address := by
    have h := List.take_left s.address (bytesWriteLE 8 s.nonce ++ s.commitment)
    rwa [ha] at h
  have hdrop1 : (s.address ++ (bytesWriteLE 8 s.nonce ++ s.commitment)).drop
      ADDRESS_BYTES = bytesWriteLE 8 s.nonce ++ s.commitment := by
    have h := List.drop_left s.address (bytesWriteLE 8 s.nonce ++ s.commitment)
    rwa [ha] at h
  have hlen8 : (bytesWriteLE 8 s.nonce).length = 8 := length_bytesWriteLE 8 s.nonce
  have htake2 : (bytesWriteLE 8 s.nonce ++ s.commitment).take 8
      = bytesWriteLE 8 s.nonce := by
    have h := List.take_left (bytesWriteLE 8 s.nonce) s.commitment
    rwa [hlen8] at h
  have hdrop2 : (bytesWriteLE 8 s.nonce ++ s.commitment).drop 8 = s.commitment := by
    have h := List.drop_left (bytesWriteLE 8 s.nonce) s.commitment
    rwa [hlen8] at h
  have hval : bytesVal (bytesWriteLE 8 s.nonce) = s.nonce := by
    rw [bytesVal_bytesWriteLE]
    have h256 : (256 : Nat) ^ 8 = 2 ^ 64 := by norm_num
    exact Nat.mod_eq_of_lt (by omega)
  have hu64 : u64_read_le (bytesWriteLE 8 s.nonce ++ s.commitment)
      = some (s.nonce, s.commitment) := by
    rw [u64_read_le, if_pos (by rw [List.length_append, hlen8]; omega), htake2,
      hdrop2, hval]
  have htakec : s.commitment.take COMMITMENT_BYTES = s.commitment := by
    have h := List.take_length s.commitment
    rwa [hc] at h
  have hdropc : s.commitment.drop COMMITMENT_BYTES = [] := by
    have h := List.drop_length s.commitment
    rwa [hc] at h
  refine ⟨⟨s.address, s.nonce, s.commitment⟩, ?_, rfl, rfl, rfl⟩
  rw [hassoc, PartialProverSolution.read_le,
    if_pos (show ADDRESS_BYTES ≤ (s.address
      ++ (bytesWriteLE 8 s.nonce ++ s.commitment)).length by
        rw [List.length_append, ha]; omega),
    hdrop1, hu64]
  dsimp only
  rw [if_pos (show COMMITMENT_BYTES ≤ s.commitment.length by omega), htake1,
    htakec, hdropc]

/-- C10 witness. -/
theorem c10_witness :
    ∃ t, PartialProverSolution.read_le (PartialProverSolution.write_le
        ⟨List.replicate 32 0, 5, List.replicate 48 1⟩) = some (t, []) ∧
      PartialProverSolution.eq t ⟨List.replicate 32 0, 5, List.replicate 48 1⟩ :=
  c10_bytes_roundtrip ⟨List.replicate 32 0, 5, List.replicate 48 1⟩ (by decide)
    (by decide) (by decide)
